import Mathlib

/-!
Verification of the completion core of coc.nvim (statiolake fork).

The definitions below are a shallow embedding of `src/completion/complete.ts`
(class `Complete`: `filterItems`, `setResult`, `limitCompleteItems`,
`completeSource`, `fireRefresh`) and of `positionHighlights` from
`src/completion/pum.ts`.  JavaScript numbers that carry fuzzy-match scores
are modelled as `Rat`; byte/character columns as `Nat`; JS `Map`s as
insertion-ordered association lists; `undefined`-able fields as `Option`.
The fuzzy scorer `matchScoreWithPositions` (from `./match`, an opaque pure
contract per the spec) is a parameter of every function that uses it.
-/

/-- Modelled from the spec: the fuzzy scorer `matchScoreWithPositions`
(`src/completion/match.ts` is not part of the sources here; the spec calls it
an opaque pure contract).  Input: candidate text and the query's character
sequence; output: `none` for "no match" or a score together with the matched
indices inside the candidate. -/
def Matcher : Type := String → List Char → Option (Rat × List Nat)

/-- Modelled from the spec: `getCharCodes` of `src/util/fuzzy.ts` turns the
query into its ordered character sequence. -/
def getCharCodes (s : String) : List Char := s.toList

/-- One completion candidate after ingestion normalization
(`ExtendedCompleteItem` of `src/types.ts` as used by `complete.ts`). -/
structure ExtendedCompleteItem where
  word : String
  abbr : String
  filterText : String
  sortText : Option String := none
  kind : Option String := none
  dup : Option Int := none
  isSnippet : Option Bool := none
  sourceScore : Option Rat := none
  priority : Int := 0
  localBonus : Option Int := none
  score : Option Rat := none
  positions : Option (List Nat) := none
  source : String := ""
  deriving Repr, DecidableEq

/-- One source's stored answer (`CompleteResult` of `src/types.ts`). -/
structure CompleteResult where
  items : List ExtendedCompleteItem
  isIncomplete : Bool := false
  startcol : Option Nat := none
  priority : Option Int := none
  deriving Repr, DecidableEq

/-- The per-session trigger context (`CompleteOption`), the fields
`complete.ts` reads and mutates. `col`/`colnr` are byte columns. -/
structure CompleteOption where
  col : Nat
  colnr : Nat
  input : String
  line : String
  deriving Repr, DecidableEq

/-- The subset of `CompleteConfig` consumed by the embedded functions. -/
structure CompleteConfig where
  maxItemCount : Nat
  defaultSortMethod : String := "length"
  removeDuplicateItems : Bool := false
  highPrioritySourceLimit : Nat := 0
  lowPrioritySourceLimit : Nat := 0
  deriving Repr, DecidableEq

/-- A completion source's identity, as far as the `Complete` constructor
uses it (`ISource.name` / `ISource.priority`). -/
structure ISource where
  name : String
  priority : Int
  deriving Repr, DecidableEq

/-- Insertion-ordered association list standing for a JS `Map`:
`set` overwrites in place or appends. -/
def mapSet {α : Type} : List (String × α) → String → α → List (String × α)
  | [], k, v => [(k, v)]
  | (k', v') :: rest, k, v =>
    if k' = k then (k, v) :: rest else (k', v') :: mapSet rest k v

/-- JS `Map.delete`: drop the entry with the given key, keep the order of
the remaining entries. -/
def mapDelete {α : Type} (m : List (String × α)) (k : String) : List (String × α) :=
  m.filter (fun p => p.1 != k)

/-- The mutable state of one `Complete` session that the embedded methods
touch: the priority-ordered source names, the results table, the trigger
option and the configuration. -/
structure Complete where
  names : List String
  results : List (String × CompleteResult)
  option : CompleteOption
  config : CompleteConfig
  deriving Repr, DecidableEq

/-- The constructor's source ordering: `sources.sort((a, b) => b.priority -
a.priority)` (a stable sort, descending priority). -/
def sourceLe (a b : ISource) : Bool := decide ((b.priority - a.priority : Int) ≤ 0)

/-- Stable insertion into a sorted list: the model of where ES2019's stable
`Array.prototype.sort` places an element among its predecessors. -/
def insertStable {α : Type} (le : α → α → Bool) (x : α) : List α → List α
  | [] => [x]
  | y :: ys => if le x y then x :: y :: ys else y :: insertStable le x ys

/-- Model of ES2019 `Array.prototype.sort` with comparator `c`
(`le a b = (c a b ≤ 0)`): a stable sort.  For a comparator that is a total
preorder every stable sort agrees; insertion sort is used as the reference. -/
def sortStable {α : Type} (le : α → α → Bool) : List α → List α
  | [] => []
  | x :: xs => insertStable le x (sortStable le xs)

/-- Lexicographic `<` on character lists: the model of the JS `<` operator
on strings (code-unit comparison). -/
def lexLtChars : List Char → List Char → Bool
  | [], [] => false
  | [], _ :: _ => true
  | _ :: _, [] => false
  | c :: cs, d :: ds => if c < d then true else if d < c then false else lexLtChars cs ds

/-- JS string comparison `a < b`. -/
def strLt (a b : String) : Bool := lexLtChars a.toList b.toList

/-- Modelled from the spec: `String.localeCompare`, which the spec reading
of the `alphabetical` tiebreak calls "lexicographic on filterText". -/
def localeCompare (a b : String) : Rat :=
  if strLt a b then -1 else if strLt b a then 1 else 0

/-- The `a.score !== b.score` step of the comparator in `filterItems`
(line `if (a.score !== b.score) return b.score - a.score`).  `none` means
"scores compare as equal, fall through to the next key".  When exactly one
side is `undefined`, JS computes `b.score - a.score = NaN`, and
`Array.prototype.sort` treats a `NaN` comparator result as 0 — hence
`some 0`. -/
def cmpScores (a b : Option Rat) : Option Rat :=
  match a, b with
  | some x, some y => if x = y then none else some (y - x)
  | none, none => none
  | _, _ => some 0

/-- The `a.localBonus !== b.localBonus` comparator step, with the same
`NaN`-as-0 convention for a one-sided `undefined`. -/
def cmpBonus (a b : Option Int) : Option Rat :=
  match a, b with
  | some x, some y => if x = y then none else some ((y - x : Int) : Rat)
  | none, none => none
  | _, _ => some 0

/-- The same-source `sortText` comparator step:
`if (a.source === b.source && sa !== sb) return sa < sb ? -1 : 1`.
When exactly one side is `undefined` both `<` comparisons are false in JS,
so the result is `1`. -/
def cmpSortText (a b : Option String) : Option Rat :=
  match a, b with
  | some x, some y => if x = y then none else some (if strLt x y then -1 else 1)
  | none, none => none
  | _, _ => some 1

/-- The comparator passed to `arr.sort` in `Complete.filterItems`
(complete.ts lines 465-483): descending score, then descending priority,
then descending localBonus, then ascending sortText for items of the same
source; after that, `0` (stable) for an empty input, and otherwise the
configured `defaultSortMethod` tiebreak (`none` = 0, `alphabetical` =
localeCompare on filterText, anything else = ascending filterText length). -/
def compareItems (input defaultSortMethod : String) (a b : ExtendedCompleteItem) : Rat :=
  match cmpScores a.score b.score with
  | some v => v
  | none =>
    if a.priority ≠ b.priority then ((b.priority - a.priority : Int) : Rat)
    else
      match cmpBonus a.localBonus b.localBonus with
      | some v => v
      | none =>
        match (if a.source = b.source then cmpSortText a.sortText b.sortText else none) with
        | some v => v
        | none =>
          if input.length = 0 then 0
          else if defaultSortMethod = "none" then 0
          else if defaultSortMethod = "alphabetical" then localeCompare a.filterText b.filterText
          else ((a.filterText.length - b.filterText.length : Int) : Rat)

/-- The boolean "sorts no later than" relation induced by `compareItems`. -/
def itemLe (input defaultSortMethod : String) (a b : ExtendedCompleteItem) : Bool :=
  decide (compareItems input defaultSortMethod a b ≤ 0)

/-- Truthiness of `item.kind` in `item.kind && filterText === input`:
a present, non-empty string. -/
def kindTruthy : Option String → Bool
  | some k => k != ""
  | none => false

/-- JS `item.sourceScore || 1`: the optional per-item source weighting factor,
with JS falsiness sending both `undefined` and `0` to `1`. -/
def sourceWeight : Option Rat → Rat
  | some w => if w = 0 then 1 else w
  | none => 1

/-- The raw score and matched positions computed for one item on a
non-empty query (complete.ts lines 439-446): an item with truthy `kind`
whose `filterText` equals the input gets the fixed score 64 and positions
`0, …, filterText.length - 1` without consulting the scorer; otherwise the
scorer decides (`none` counts as score 0 with no positions). -/
def rawScorePositions (matcher : Matcher) (input : String) (codes : List Char)
    (it : ExtendedCompleteItem) : Rat × Option (List Nat) :=
  if kindTruthy it.kind ∧ it.filterText = input then
    (64, some (List.range it.filterText.length))
  else
    match matcher it.filterText codes with
    | none => (0, none)
    | some (s, ps) => (s, some ps)

/-- JS `s.slice(0, n)` (modelled on characters). -/
def takeChars (s : String) (n : Nat) : String := (s.toList.take n).asString

/-- Auxiliary scan for `strIndexOf`. -/
def strIndexOfAux (pat : List Char) : List Char → Nat → Option Nat
  | s, i =>
    if pat.isPrefixOf s then some i
    else
      match s with
      | [] => none
      | _ :: t => strIndexOfAux pat t (i + 1)

/-- JS `String.prototype.indexOf`, with `none` for `-1`. -/
def strIndexOf (s pat : String) : Option Nat := strIndexOfAux pat.toList s.toList 0

/-- The projection of matched positions from `filterText` onto `abbr`
(complete.ts lines 449-454): with `abbr == filterText` the positions are
stored as-is (even when absent); otherwise, for a non-empty position list,
the matched prefix of `filterText` is located inside `abbr` and the
positions are shifted by its index, the previous value being kept when the
prefix does not occur. -/
def projectPositions (abbr filterText : String) (positions : Option (List Nat))
    (oldPositions : Option (List Nat)) : Option (List Nat) :=
  if abbr = filterText then positions
  else
    match positions with
    | some ps =>
      if ps.length > 0 then
        match strIndexOf abbr (takeChars filterText (ps.getLastD 0 + 1)) with
        | some idx => some (ps.map (· + idx))
        | none => oldPositions
      else oldPositions
    | none => oldPositions

/-- The body of the per-item loop of `Complete.filterItems`
(complete.ts lines 431-462): `none` means the item is skipped, `some`
carries the (possibly rescored) item that is pushed.  The caller adds the
word of a pushed item to `words`. -/
def processItem (matcher : Matcher) (input : String) (codes : List Char)
    (removeDuplicateItems : Bool) (snippetSource : Bool)
    (words : List String) (item : ExtendedCompleteItem) : Option ExtendedCompleteItem :=
  let len := input.length
  if item.dup ≠ some 1 ∧ words.contains item.word then none
  else if item.filterText.length < len then none
  else if removeDuplicateItems ∧ item.isSnippet ≠ some true ∧ words.contains item.word then none
  else if len ≠ 0 then
    let sp := rawScorePositions matcher input codes item
    if sp.1 = 0 then none
    else
      some { item with
        positions := projectPositions item.abbr item.filterText sp.2 item.positions,
        score := some (if snippetSource ∧ item.word = input then 99
                       else sp.1 * sourceWeight item.sourceScore) }
  else some item

/-- The per-source item loop: thread the shared `words` set through
`processItem`, adding each pushed item's word. -/
def processItems (matcher : Matcher) (input : String) (codes : List Char)
    (removeDuplicateItems : Bool) (snippetSource : Bool) :
    List ExtendedCompleteItem → List String → List ExtendedCompleteItem × List String
  | [], words => ([], words)
  | it :: rest, words =>
    match processItem matcher input codes removeDuplicateItems snippetSource words it with
    | none => processItems matcher input codes removeDuplicateItems snippetSource rest words
    | some it' =>
      let r := processItems matcher input codes removeDuplicateItems snippetSource rest
        (words ++ [it.word])
      (it' :: r.1, r.2)

/-- The source loop of `Complete.filterItems` (lines 425-464): walk the
priority-ordered `names`, look each one up in the results table, and run
the item loop with the `words` set shared across sources.  The dedicated
snippet source is the one named `"snippets"`. -/
def collectItems (matcher : Matcher) (input : String) (codes : List Char)
    (removeDuplicateItems : Bool) (results : List (String × CompleteResult)) :
    List String → List String → List ExtendedCompleteItem
  | [], _ => []
  | name :: rest, words =>
    match results.lookup name with
    | none => collectItems matcher input codes removeDuplicateItems results rest words
    | some result =>
      let r := processItems matcher input codes removeDuplicateItems (name == "snippets")
        result.items words
      r.1 ++ collectItems matcher input codes removeDuplicateItems results rest r.2

/-- The per-source counting pass inside `limitCompleteItems`
(complete.ts lines 502-512): drop an item when its source's running count
equals the non-zero cap of its priority tier (`priority < 90` is the low
tier), otherwise keep it and bump the count. -/
def limitGo (highCap lowCap : Nat) (counts : List (String × Nat)) :
    List ExtendedCompleteItem → List ExtendedCompleteItem
  | [] => []
  | it :: rest =>
    let isLow := it.priority < 90
    let curr := (counts.lookup it.source).getD 0
    if (lowCap ≠ 0 ∧ isLow ∧ curr = lowCap) ∨ (highCap ≠ 0 ∧ ¬ isLow ∧ curr = highCap) then
      limitGo highCap lowCap counts rest
    else it :: limitGo highCap lowCap (mapSet counts it.source (curr + 1)) rest

/-- Method `Complete.limitCompleteItems` (complete.ts lines 498-513): identity when
both per-source caps are zero (falsy), otherwise the counting pass. -/
def Complete.limitCompleteItems (cfg : CompleteConfig)
    (items : List ExtendedCompleteItem) : List ExtendedCompleteItem :=
  if cfg.highPrioritySourceLimit = 0 ∧ cfg.lowPrioritySourceLimit = 0 then items
  else limitGo cfg.highPrioritySourceLimit cfg.lowPrioritySourceLimit [] items

/-- Method `Complete.filterItems` (complete.ts lines 415-485): empty table short
circuit, the dedup/length/scoring collection pass, the comparator sort, the
`maxItemCount` truncation and the per-source limiting. -/
def Complete.filterItems (matcher : Matcher) (input : String) (c : Complete) :
    List ExtendedCompleteItem :=
  if c.results.isEmpty then []
  else
    let codes := getCharCodes input
    let arr := collectItems matcher input codes c.config.removeDuplicateItems c.results
      c.names []
    let sorted := sortStable (itemLe input c.config.defaultSortMethod) arr
    Complete.limitCompleteItems c.config (sorted.take c.config.maxItemCount)

/-- The UTF-8 byte width of the first `i` characters: the `byteIndex` of
`src/util/string.ts` (character index to byte index). -/
def byteIndex (s : String) (i : Nat) : Nat :=
  ((s.toList.take i).map Char.utf8Size).sum

/-- Auxiliary walk for `byteSlice`: keep the characters whose UTF-8 bytes
lie entirely inside `[a, b)`. -/
def byteSliceAux (a b : Nat) : List Char → Nat → List Char
  | [], _ => []
  | c :: cs, pos =>
    if a ≤ pos ∧ pos + c.utf8Size ≤ b then c :: byteSliceAux a b cs (pos + c.utf8Size)
    else byteSliceAux a b cs (pos + c.utf8Size)

/-- Modelled from the spec: `byteSlice` of `src/util/string.ts` (not among
the sources here) — the slice of a line between two byte columns, decoded
back to text.  Bytes of a character cut in half are dropped rather than
decoded to U+FFFD replacement characters. -/
def byteSlice (s : String) (a b : Nat) : String := (byteSliceAux a b s.toList 0).asString

/-- Method `Complete.setResult` (complete.ts lines 516-528): a declared `startcol`
differing from the session column rewrites the column and the input and
resets the whole results table to this one entry; otherwise the entry is
stored or overwritten in place. -/
def Complete.setResult (c : Complete) (name : String) (result : CompleteResult) : Complete :=
  match result.startcol with
  | some startcol =>
    if startcol ≠ c.option.col then
      { c with
        option := { c.option with
          col := startcol,
          input := byteSlice c.option.line startcol (c.option.colnr - 1) },
        results := [(name, result)] }
    else { c with results := mapSet c.results name result }
  | none => { c with results := mapSet c.results name result }

/-- A completion item as a source delivers it, before the normalization of
`completeSource` fills in the defaults (`VimCompleteItem`-shaped input with
every field optional). -/
structure RawCompleteItem where
  word : Option String := none
  abbr : Option String := none
  filterText : Option String := none
  sortText : Option String := none
  kind : Option String := none
  dup : Option Int := none
  isSnippet : Option Bool := none
  sourceScore : Option Rat := none
  deriving Repr, DecidableEq

/-- A source's raw answer before normalization. -/
structure RawCompleteResult where
  items : List RawCompleteItem
  isIncomplete : Bool := false
  startcol : Option Nat := none
  deriving Repr, DecidableEq

/-- The per-item normalization of `completeSource` (complete.ts lines
364-377): default `word`/`abbr`/`filterText`, strip a trailing fragment of
`word` that duplicates the text after the cursor, append the snippet
indicator to the `abbr` of snippet items, default a still-falsy `abbr` to
the local (pre-strip) word, and assign the locality bonus (skipped for the
dedicated snippet source, whose items keep it `undefined`). -/
def normalizeItem (name : String) (priority : Int) (followPart snippetIndicator : String)
    (localBonus : String → Option Int) (raw : RawCompleteItem) : ExtendedCompleteItem :=
  let word0 := raw.word.getD ""
  let abbr0 := raw.abbr.getD word0
  let filterText := raw.filterText.getD word0
  let word1 :=
    if followPart.length > 0 ∧ word0 ≠ followPart ∧ word0.endsWith followPart then
      word0.dropRight followPart.length
    else word0
  let abbr1 : Option String :=
    if raw.isSnippet = some true ∧ ¬ abbr0.endsWith snippetIndicator then
      some (abbr0 ++ snippetIndicator)
    else raw.abbr
  let abbr2 :=
    match abbr1 with
    | some s => if s = "" then word0 else s
    | none => word0
  { word := word1
    abbr := abbr2
    filterText := filterText
    sortText := raw.sortText
    kind := raw.kind
    dup := raw.dup
    isSnippet := raw.isSnippet
    sourceScore := raw.sourceScore
    priority := priority
    localBonus := if name ≠ "snippets" then some ((localBonus filterText).getD 0) else none
    score := none
    positions := none
    source := name }

/-- What one source's asynchronous calls do when awaited: the resolved
value, or the error a rejected promise / thrown callback carries. -/
def JsOutcome (α : Type) : Type := Except String α

/-- Method `Complete.completeSource` (complete.ts lines 341-391) as a state
transformer.  The source's `shouldComplete` (absent, throwing, or
resolving to a boolean) and `doComplete` (throwing/rejecting, or resolving
to `null` or a result) are data; the two cancellation-token reads are
booleans.  The returned list carries the error messages reported to the
user and the log (`nvim.echoError` / `logger.error`) — an empty list means
the call resolved without reporting; nothing is ever re-thrown. -/
def Complete.completeSource (c : Complete) (name : String) (priority : Int)
    (shouldComplete : Option (JsOutcome Bool))
    (doComplete : JsOutcome (Option RawCompleteResult))
    (cancelledAtShould cancelledAtResult : Bool)
    (followPart snippetIndicator : String)
    (localBonus : String → Option Int) : Complete × List String :=
  let run : Unit → Complete × List String := fun _ =>
    match doComplete with
    | Except.error e => (c, [e])
    | Except.ok r =>
      if cancelledAtResult then (c, [])
      else
        match r with
        | none => ({ c with results := mapDelete c.results name }, [])
        | some result =>
          if result.items.length > 0 then
            let items := result.items.map
              (normalizeItem name priority followPart snippetIndicator localBonus)
            (c.setResult name
              { items := items, isIncomplete := result.isIncomplete,
                startcol := result.startcol, priority := some priority }, [])
          else ({ c with results := mapDelete c.results name }, [])
  match shouldComplete with
  | some (Except.error e) => (c, [e])
  | some (Except.ok false) => (c, [])
  | some (Except.ok true) => if cancelledAtShould then (c, []) else run ()
  | none => run ()

/-- The event-loop timer table: the ids handed out so far and the ids of
the callbacks still pending. -/
structure TimerWorld where
  nextId : Nat
  pending : List Nat
  deriving Repr, DecidableEq

/-- JS `clearTimeout`: a pending callback with this id will not fire; unknown
ids are a no-op. -/
def clearTimeoutW (w : TimerWorld) (id : Nat) : TimerWorld :=
  { w with pending := w.pending.filter (fun i => i != id) }

/-- JS `setTimeout`: schedule a fresh callback, returning its id. -/
def setTimeoutW (w : TimerWorld) : Nat × TimerWorld :=
  (w.nextId, { nextId := w.nextId + 1, pending := w.pending ++ [w.nextId] })

/-- A timer firing or being consumed by the event loop: it leaves the
pending table. -/
def runTimerW (w : TimerWorld) (id : Nat) : TimerWorld :=
  { w with pending := w.pending.filter (fun i => i != id) }

/-- The refresh-debounce state of a session: the timer world and the
session's `this.timer` field (which may point at an already-fired timer). -/
structure SessionTimers where
  world : TimerWorld
  timer : Option Nat
  deriving Repr, DecidableEq

/-- Method `Complete.fireRefresh` (complete.ts lines 217-223), timer part:
`if (this.timer) clearTimeout(this.timer); this.timer = setTimeout(...)`. -/
def fireRefresh (s : SessionTimers) : SessionTimers :=
  let w :=
    match s.timer with
    | some t => clearTimeoutW s.world t
    | none => s.world
  let r := setTimeoutW w
  { world := r.2, timer := some r.1 }

/-- The well-formedness of a session's timer state: every pending refresh
timer is the one `this.timer` points at, every pending id was handed out
by `setTimeout`, and ids are not duplicated. -/
def RefreshInv (s : SessionTimers) : Prop :=
  (∀ id ∈ s.world.pending, s.timer = some id) ∧
  (∀ id ∈ s.world.pending, id < s.world.nextId) ∧
  s.world.pending.Nodup

/-- A rendered highlight span (`HighlightItem` as built by pum.ts). -/
structure HighlightItem where
  hlGroup : String
  lnum : Nat
  colStart : Nat
  colEnd : Nat
  deriving Repr, DecidableEq

/-- The inner `while` of `positionHighlights` (pum.ts lines 197-205):
starting from run end `e`, absorb successive positions while each equals
its predecessor plus one; return the final run end and the unconsumed
positions. -/
def extendRun (e : Nat) : List Nat → Nat × List Nat
  | [] => (e, [])
  | n :: rest => if n = e + 1 then extendRun n rest else (e, n :: rest)

/-- Function `positionHighlights` of `src/completion/pum.ts` (lines 193-215): take
the first remaining position as a run start, extend the run over
consecutive positions, and emit one `CocPumSearch` span per run covering
the byte range of the run inside `label`, shifted by `pre`. -/
def positionHighlights (label : String) (positions : List Nat) (pre row : Nat) :
    List HighlightItem :=
  match positions with
  | [] => []
  | start :: rest =>
    match h : extendRun start rest with
    | (e, rest') =>
      { hlGroup := "CocPumSearch", lnum := row,
        colStart := pre + byteIndex label start,
        colEnd := pre + byteIndex label (e + 1) } ::
        positionHighlights label rest' pre row
termination_by positions.length
decreasing_by
  simp only [List.length_cons]
  have key : ∀ (l : List Nat) (e : Nat), (extendRun e l).2.length ≤ l.length := by
    intro l
    induction l with
    | nil => intro e; simp [extendRun]
    | cons n rest2 ih =>
      intro e
      simp only [extendRun]
      split
      · exact Nat.le_trans (ih n) (Nat.le_succ _)
      · simp
  exact Nat.lt_succ_of_le
    (le_of_eq_of_le (congrArg (fun p => p.2.length) h).symm (key _ _))

/-- Written from the spec's words for `positionHighlights` ("collapses a
sorted list of matched character indices into maximal contiguous runs"):
accumulate the current run `[s, e]` and start a new run at each
non-successor. -/
def specRunsAux (s e : Nat) : List Nat → List (Nat × Nat)
  | [] => [(s, e)]
  | n :: rest => if n = e + 1 then specRunsAux s n rest else (s, e) :: specRunsAux n n rest

/-- Written from the spec's words: the maximal contiguous runs of a
position list, each run given as its first and last position. -/
def specRuns : List Nat → List (Nat × Nat)
  | [] => []
  | n :: rest => specRunsAux n n rest

/-- The span that `positionHighlights` emits for the run `[r.1, r.2]`:
one `CocPumSearch` highlight covering the byte range of the run inside
`label`, shifted by the byte offset `pre`. -/
def mkRunSpan (label : String) (pre row : Nat) (r : Nat × Nat) : HighlightItem :=
  { hlGroup := "CocPumSearch", lnum := row,
    colStart := pre + byteIndex label r.1,
    colEnd := pre + byteIndex label (r.2 + 1) }

/-- A fuzzy matcher that never matches (the concrete scenarios below use
an empty query, which never consults the matcher). -/
def matcherNone : Matcher := fun _ _ => none

/-- A concrete total matcher: every candidate scores 10 with position 0. -/
def matcherConst : Matcher := fun _ _ => some (10, [0])

/-- Scenario item: source "lsp" (priority 100) yields word "foo". -/
def lspFoo : ExtendedCompleteItem :=
  { word := "foo", abbr := "foo", filterText := "foo", source := "lsp", priority := 100 }

/-- Scenario item: source "dict" (priority 10) yields word "foo",
not marked dup-allowed. -/
def dictFoo : ExtendedCompleteItem :=
  { word := "foo", abbr := "foo", filterText := "foo", source := "dict", priority := 10 }

/-- Scenario session: sources "dict" (priority 10) and "lsp" (priority
100) as ordered by the constructor's stable descending-priority sort, with
duplicate removal enabled and both "foo" items stored. -/
def c4state : Complete :=
  { names := (sortStable sourceLe [⟨"dict", 10⟩, ⟨"lsp", 100⟩]).map ISource.name
    results := [("lsp", { items := [lspFoo] }), ("dict", { items := [dictFoo] })]
    option := { col := 1, colnr := 4, input := "", line := "foo" }
    config := { maxItemCount := 50, removeDuplicateItems := true } }

/-- Tiebreak fixture: an item with the longer filterText "bb", stored
first. -/
def itemBB : ExtendedCompleteItem :=
  { word := "bb", abbr := "bb", filterText := "bb", source := "s", priority := 10 }

/-- Tiebreak fixture: an item with the shorter filterText "a", stored
second. -/
def itemA : ExtendedCompleteItem :=
  { word := "a", abbr := "a", filterText := "a", source := "s", priority := 10 }

/-- Tiebreak session: one source, both tiebreak fixture items, default
sort method ("length"). -/
def c1state : Complete :=
  { names := ["s"]
    results := [("s", { items := [itemBB, itemA] })]
    option := { col := 1, colnr := 1, input := "", line := "" }
    config := { maxItemCount := 50 } }

/-- Truncation session: same table as `c1state` but `maxItemCount = 1`. -/
def c3state : Complete :=
  { names := ["s"]
    results := [("s", { items := [itemBB, itemA] })]
    option := { col := 1, colnr := 1, input := "", line := "" }
    config := { maxItemCount := 1 } }

/-- Column-rewrite fixture session: column 2, cursor byte 5 on line
"hello", two stored results. -/
def c2state : Complete :=
  { names := ["a", "b"]
    results := [("a", { items := [] }), ("b", { items := [] })]
    option := { col := 2, colnr := 6, input := "llo", line := "hello" }
    config := { maxItemCount := 50 } }

/-- A high-priority (≥ 90) item of source "s" carrying an identifying
word. -/
def hiItem (n : Nat) : ExtendedCompleteItem :=
  { word := toString n, abbr := "w", filterText := "w", source := "s", priority := 95 }

/-- Dedup fixture: an item explicitly marked dup-allowed (`dup = 1`). -/
def dupFoo : ExtendedCompleteItem :=
  { word := "foo", abbr := "foo", filterText := "foo", dup := some 1, source := "x" }

/-- Exact-match fixture: an item with a non-empty kind whose filterText
equals the query "ab". -/
def kindItem : ExtendedCompleteItem :=
  { word := "ab", abbr := "ab", filterText := "ab", kind := some "Function", source := "x" }

theorem insertStable_perm {α : Type} (le : α → α → Bool) (x : α) (l : List α) :
    List.Perm (insertStable le x l) (x :: l) := by
  induction l with
  | nil => exact List.Perm.refl _
  | cons y ys ih =>
    simp only [insertStable]
    split
    · exact List.Perm.refl _
    · exact (ih.cons y).trans (List.Perm.swap x y ys)

theorem sortStable_perm {α : Type} (le : α → α → Bool) (l : List α) :
    List.Perm (sortStable le l) l := by
  induction l with
  | nil => exact List.Perm.refl _
  | cons x xs ih => exact (insertStable_perm le x (sortStable le xs)).trans (ih.cons x)

theorem pairwise_insertStable {α : Type} {R : α → α → Prop}
    (htrans : ∀ a b c, R a b → R b c → R a c) (le : α → α → Bool) (x : α) :
    ∀ l : List α, (∀ b ∈ l, (le x b = true → R x b) ∧ (le x b = false → R b x)) →
      l.Pairwise R → (insertStable le x l).Pairwise R := by
  intro l
  induction l with
  | nil => intro _ _; simp [insertStable]
  | cons y ys ih =>
    intro hcond hpair
    rcases List.pairwise_cons.mp hpair with ⟨hy, hys⟩
    simp only [insertStable]
    split
    · rename_i hxy
      refine List.pairwise_cons.mpr ⟨?_, hpair⟩
      intro z hz
      rcases List.mem_cons.mp hz with rfl | hz'
      · exact (hcond z (List.mem_cons_self _ _)).1 hxy
      · exact htrans x y z ((hcond y (List.mem_cons_self _ _)).1 hxy) (hy z hz')
    · rename_i hxy
      have hxyf : le x y = false := by simpa using hxy
      refine List.pairwise_cons.mpr ⟨?_, ?_⟩
      · intro z hz
        rcases List.mem_cons.mp ((insertStable_perm le x ys).mem_iff.mp hz) with rfl | hz'
        · exact (hcond y (List.mem_cons_self _ _)).2 hxyf
        · exact hy z hz'
      · exact ih (fun b hb => hcond b (List.mem_cons_of_mem _ hb)) hys

theorem pairwise_sortStable {α : Type} {R : α → α → Prop}
    (htrans : ∀ a b c, R a b → R b c → R a c) (le : α → α → Bool) :
    ∀ l : List α, (∀ a ∈ l, ∀ b ∈ l, (le a b = true → R a b) ∧ (le a b = false → R b a)) →
      (sortStable le l).Pairwise R := by
  intro l
  induction l with
  | nil => intro _; simp [sortStable]
  | cons x xs ih =>
    intro hcond
    simp only [sortStable]
    refine pairwise_insertStable htrans le x _ ?_ ?_
    · intro b hb
      have hbxs : b ∈ xs := (sortStable_perm le xs).mem_iff.mp hb
      exact hcond x (List.mem_cons_self _ _) b (List.mem_cons_of_mem _ hbxs)
    · exact ih fun a ha b hb =>
        hcond a (List.mem_cons_of_mem _ ha) b (List.mem_cons_of_mem _ hb)

theorem lookup_mapSet_self {α : Type} (m : List (String × α)) (k : String) (v : α) :
    (mapSet m k v).lookup k = some v := by
  induction m with
  | nil => simp [mapSet, List.lookup]
  | cons p rest ih =>
    obtain ⟨k', v'⟩ := p
    simp only [mapSet]
    split
    · simp [List.lookup]
    · rename_i hne
      have hbeq : (k == k') = false := by
        simp only [beq_eq_false_iff_ne, ne_eq]
        exact fun hh => hne hh.symm
      simp [List.lookup, hbeq, ih]

theorem lookup_mapSet_ne {α : Type} (m : List (String × α)) (k : String) (v : α)
    (k' : String) (h : k' ≠ k) : (mapSet m k v).lookup k' = m.lookup k' := by
  have hbeq : (k' == k) = false := by simpa [beq_eq_false_iff_ne] using h
  induction m with
  | nil => simp [mapSet, List.lookup, hbeq]
  | cons p rest ih =>
    obtain ⟨k'', v''⟩ := p
    simp only [mapSet]
    split
    · rename_i heq
      subst heq
      simp [List.lookup, hbeq]
    · by_cases hk : k' = k''
      · subst hk
        simp [List.lookup]
      · have hbeq2 : (k' == k'') = false := by simpa [beq_eq_false_iff_ne] using hk
        simp [List.lookup, hbeq2, ih]

theorem limitGo_sublist (hc lc : Nat) (cnts : List (String × Nat))
    (items : List ExtendedCompleteItem) : List.Sublist (limitGo hc lc cnts items) items := by
  induction items generalizing cnts with
  | nil => simp [limitGo]
  | cons it rest ih =>
    simp only [limitGo]
    split
    · exact (ih cnts).cons it
    · exact (ih _).cons₂ it

theorem limitCompleteItems_sublist (cfg : CompleteConfig)
    (items : List ExtendedCompleteItem) :
    List.Sublist (Complete.limitCompleteItems cfg items) items := by
  unfold Complete.limitCompleteItems
  split
  · exact List.Sublist.refl _
  · exact limitGo_sublist _ _ _ _

theorem limitGo_high_zero (lc : Nat) (cnts : List (String × Nat))
    (items : List ExtendedCompleteItem) (hall : ∀ it ∈ items, ¬ it.priority < 90) :
    limitGo 0 lc cnts items = items := by
  induction items generalizing cnts with
  | nil => simp [limitGo]
  | cons it rest ih =>
    have hhi := hall it (List.mem_cons_self _ _)
    simp only [limitGo]
    split
    · rename_i hcond
      rcases hcond with ⟨_, hl, _⟩ | ⟨hz, _, _⟩
      · exact absurd hl hhi
      · exact absurd rfl hz
    · rw [ih _ fun x hx => hall x (List.mem_cons_of_mem _ hx)]

theorem limitGo_take (cap lc : Nat) (s : String) (hcap : cap ≠ 0) :
    ∀ (items : List ExtendedCompleteItem) (cnts : List (String × Nat)) (k : Nat),
      (∀ it ∈ items, it.source = s ∧ ¬ it.priority < 90) →
      (cnts.lookup s).getD 0 = k → k ≤ cap →
      limitGo cap lc cnts items = items.take (cap - k) := by
  intro items
  induction items with
  | nil => intro cnts k _ _ _; simp [limitGo]
  | cons it rest ih =>
    intro cnts k hall hk hkc
    obtain ⟨hsrc, hhi⟩ := hall it (List.mem_cons_self _ _)
    have hrest : ∀ x ∈ rest, x.source = s ∧ ¬ x.priority < 90 :=
      fun x hx => hall x (List.mem_cons_of_mem _ hx)
    simp only [limitGo, hsrc, hk]
    split
    · rename_i hcond
      rcases hcond with ⟨_, hl, _⟩ | ⟨_, _, hkcap⟩
      · exact absurd hl hhi
      · subst hkcap
        rw [ih cnts k hrest hk (le_refl _)]
        simp
    · rename_i hcond
      have hkne : k ≠ cap := fun hkc2 => hcond (Or.inr ⟨hcap, hhi, hkc2⟩)
      have hklt : k < cap := lt_of_le_of_ne hkc hkne
      have hsub : (cap - k) = (cap - (k + 1)) + 1 := by omega
      rw [ih (mapSet cnts s (k + 1)) (k + 1) hrest
        (by rw [lookup_mapSet_self]; rfl) hklt, hsub]
      simp

theorem limitGo_take_low (cap hc : Nat) (s : String) (hcap : cap ≠ 0) :
    ∀ (items : List ExtendedCompleteItem) (cnts : List (String × Nat)) (k : Nat),
      (∀ it ∈ items, it.source = s ∧ it.priority < 90) →
      (cnts.lookup s).getD 0 = k → k ≤ cap →
      limitGo hc cap cnts items = items.take (cap - k) := by
  intro items
  induction items with
  | nil => intro cnts k _ _ _; simp [limitGo]
  | cons it rest ih =>
    intro cnts k hall hk hkc
    obtain ⟨hsrc, hlo⟩ := hall it (List.mem_cons_self _ _)
    have hrest : ∀ x ∈ rest, x.source = s ∧ x.priority < 90 :=
      fun x hx => hall x (List.mem_cons_of_mem _ hx)
    simp only [limitGo, hsrc, hk]
    split
    · rename_i hcond
      rcases hcond with ⟨_, _, hkcap⟩ | ⟨_, hh, _⟩
      · subst hkcap
        rw [ih cnts k hrest hk (le_refl _)]
        simp
      · exact absurd hlo hh
    · rename_i hcond
      have hkne : k ≠ cap := fun hkc2 => hcond (Or.inl ⟨hcap, hlo, hkc2⟩)
      have hklt : k < cap := lt_of_le_of_ne hkc hkne
      have hsub : (cap - k) = (cap - (k + 1)) + 1 := by omega
      rw [ih (mapSet cnts s (k + 1)) (k + 1) hrest
        (by rw [lookup_mapSet_self]; rfl) hklt, hsub]
      simp

theorem mem_of_lookup_eq_some {α : Type} {l : List (String × α)} {k : String} {v : α}
    (h : l.lookup k = some v) : (k, v) ∈ l := by
  induction l with
  | nil => simp [List.lookup] at h
  | cons p rest ih =>
    obtain ⟨k', v'⟩ := p
    by_cases hk : k = k'
    · subst hk
      simp [List.lookup] at h
      simp [h]
    · have hbeq : (k == k') = false := by simpa [beq_eq_false_iff_ne] using hk
      simp [List.lookup, hbeq] at h
      exact List.mem_cons_of_mem _ (ih h)

theorem processItem_some {m : Matcher} {input : String} {codes : List Char}
    {rd snip : Bool} {words : List String} {it it' : ExtendedCompleteItem}
    (h : processItem m input codes rd snip words it = some it') :
    it'.word = it.word ∧ it'.dup = it.dup ∧ it'.filterText = it.filterText ∧
      it'.priority = it.priority ∧ it'.source = it.source ∧ it'.sortText = it.sortText ∧
      it'.localBonus = it.localBonus ∧ it'.isSnippet = it.isSnippet ∧
      input.length ≤ it.filterText.length ∧ (it.dup = some 1 ∨ it.word ∉ words) := by
  simp only [processItem] at h
  split_ifs at h with h1 h2 h3 h4 h5 h6
  all_goals try exact Option.noConfusion h
  all_goals
    injection h with hinj
    subst hinj
    refine ⟨rfl, rfl, rfl, rfl, rfl, rfl, rfl, rfl, Nat.not_lt.mp h2, ?_⟩
    by_cases hd : it.dup = some 1
    · exact Or.inl hd
    · refine Or.inr ?_
      have hc : words.contains it.word = false := by
        cases hcc : words.contains it.word
        · rfl
        · exact absurd ⟨hd, hcc⟩ h1
      simpa using hc

theorem processItem_empty_eq (m m' : Matcher) (codes codes' : List Char) (rd snip : Bool)
    (words : List String) (it : ExtendedCompleteItem) :
    processItem m "" codes rd snip words it = processItem m' "" codes' rd snip words it := by
  have h0 : ("" : String).length = 0 := rfl
  simp [processItem, h0]

theorem processItem_empty_some {m : Matcher} {codes : List Char} {rd snip : Bool}
    {words : List String} {it x : ExtendedCompleteItem}
    (h : processItem m "" codes rd snip words it = some x) : x = it := by
  have h0 : ("" : String).length = 0 := rfl
  simp only [processItem, h0] at h
  split_ifs at h with g1 g2 g3 g4 g5 g6
  all_goals try exact Option.noConfusion h
  all_goals try exact absurd rfl g4
  all_goals
    injection h with hinj
    exact hinj.symm

theorem processItem_score_isSome {m : Matcher} {input : String} {codes : List Char}
    {rd snip : Bool} {words : List String} {it it' : ExtendedCompleteItem}
    (hlen : input.length ≠ 0) (h : processItem m input codes rd snip words it = some it') :
    it'.score.isSome = true := by
  simp only [processItem] at h
  split_ifs at h with h1 h2 h3 h4 h5 h6
  all_goals try exact Option.noConfusion h
  all_goals try exact absurd h4 (fun hc => hc hlen)
  all_goals
    injection h with hinj
    subst hinj
    rfl

theorem processItems_snd (m : Matcher) (input : String) (codes : List Char)
    (rd snip : Bool) :
    ∀ (items : List ExtendedCompleteItem) (words : List String),
      (processItems m input codes rd snip items words).2 =
        words ++ ((processItems m input codes rd snip items words).1.map (·.word)) := by
  intro items
  induction items with
  | nil => intro words; simp [processItems]
  | cons it rest ih =>
    intro words
    simp only [processItems]
    cases hpi : processItem m input codes rd snip words it with
    | none => simpa using ih words
    | some it' =>
      have hw : it'.word = it.word := (processItem_some hpi).1
      simp only [List.map_cons, hw]
      rw [ih (words ++ [it.word])]
      simp

theorem mem_processItems {m : Matcher} {input : String} {codes : List Char}
    {rd snip : Bool} :
    ∀ {items : List ExtendedCompleteItem} {words : List String}
      {x : ExtendedCompleteItem}, x ∈ (processItems m input codes rd snip items words).1 →
      ∃ it ∈ items, ∃ w, processItem m input codes rd snip w it = some x := by
  intro items
  induction items with
  | nil => intro words x hx; simp [processItems] at hx
  | cons it rest ih =>
    intro words x hx
    simp only [processItems] at hx
    cases hpi : processItem m input codes rd snip words it with
    | none =>
      rw [hpi] at hx
      obtain ⟨it2, h2, hw⟩ := ih hx
      exact ⟨it2, List.mem_cons_of_mem _ h2, hw⟩
    | some it' =>
      rw [hpi] at hx
      rcases List.mem_cons.mp hx with rfl | hx'
      · exact ⟨it, List.mem_cons_self _ _, words, hpi⟩
      · obtain ⟨it2, h2, hw⟩ := ih hx'
        exact ⟨it2, List.mem_cons_of_mem _ h2, hw⟩

theorem processItems_dedup (m : Matcher) (input : String) (codes : List Char)
    (rd snip : Bool) :
    ∀ (items : List ExtendedCompleteItem) (words : List String),
      ((processItems m input codes rd snip items words).1.Pairwise
        (fun a b => a.word = b.word → a.dup = some 1 ∨ b.dup = some 1)) ∧
      (∀ x ∈ (processItems m input codes rd snip items words).1,
        x.dup = some 1 ∨ x.word ∉ words) := by
  intro items
  induction items with
  | nil => intro words; simp [processItems]
  | cons it rest ih =>
    intro words
    simp only [processItems]
    cases hpi : processItem m input codes rd snip words it with
    | none => exact ih words
    | some it' =>
      obtain ⟨ihp, ihm⟩ := ih (words ++ [it.word])
      have hw : it'.word = it.word := (processItem_some hpi).1
      have hdup : it.dup = some 1 ∨ it.word ∉ words := (processItem_some hpi).2.2.2.2.2.2.2.2.2
      have hdup' : it'.dup = it.dup := (processItem_some hpi).2.1
      constructor
      · refine List.pairwise_cons.mpr ⟨?_, ihp⟩
        intro y hy hword
        rcases ihm y hy with hyd | hyw
        · exact Or.inr hyd
        · exfalso
          exact hyw (by
            rw [← hword, hw]
            exact List.mem_append_right _ (List.mem_singleton.mpr rfl))
      · intro x hx
        rcases List.mem_cons.mp hx with rfl | hx'
        · rw [hw, hdup']
          exact hdup
        · rcases ihm x hx' with hxd | hxw
          · exact Or.inl hxd
          · exact Or.inr fun hmem => hxw (List.mem_append_left _ hmem)

theorem mem_collectItems {m : Matcher} {input : String} {codes : List Char}
    {rd : Bool} {results : List (String × CompleteResult)} :
    ∀ {names words : List String} {x : ExtendedCompleteItem},
      x ∈ collectItems m input codes rd results names words →
      ∃ name r, results.lookup name = some r ∧
        ∃ it ∈ r.items, ∃ snip w, processItem m input codes rd snip w it = some x := by
  intro names
  induction names with
  | nil => intro words x hx; simp [collectItems] at hx
  | cons name rest ih =>
    intro words x hx
    simp only [collectItems] at hx
    cases hlk : results.lookup name with
    | none =>
      rw [hlk] at hx
      exact ih hx
    | some result =>
      rw [hlk] at hx
      rcases List.mem_append.mp hx with hx1 | hx2
      · obtain ⟨it, hit, w, hw⟩ := mem_processItems hx1
        exact ⟨name, result, hlk, it, hit, _, w, hw⟩
      · exact ih hx2

theorem collectItems_dedup (m : Matcher) (input : String) (codes : List Char)
    (rd : Bool) (results : List (String × CompleteResult)) :
    ∀ (names words : List String),
      ((collectItems m input codes rd results names words).Pairwise
        (fun a b => a.word = b.word → a.dup = some 1 ∨ b.dup = some 1)) ∧
      (∀ x ∈ collectItems m input codes rd results names words,
        x.dup = some 1 ∨ x.word ∉ words) := by
  intro names
  induction names with
  | nil => intro words; simp [collectItems]
  | cons name rest ih =>
    intro words
    simp only [collectItems]
    cases hlk : results.lookup name with
    | none => exact ih words
    | some result =>
      obtain ⟨php, phm⟩ := processItems_dedup m input codes rd (name == "snippets")
        result.items words
      obtain ⟨ihp, ihm⟩ := ih (processItems m input codes rd (name == "snippets")
        result.items words).2
      have hw2 := processItems_snd m input codes rd (name == "snippets") result.items words
      constructor
      · refine List.pairwise_append.mpr ⟨php, ihp, ?_⟩
        intro a ha b hb hword
        rcases ihm b hb with hbd | hbw
        · exact Or.inr hbd
        · exfalso
          apply hbw
          rw [hw2]
          exact List.mem_append_right _ (hword ▸ List.mem_map_of_mem _ ha)
      · intro x hx
        rcases List.mem_append.mp hx with hx1 | hx2
        · exact phm x hx1
        · rcases ihm x hx2 with hxd | hxw
          · exact Or.inl hxd
          · exact Or.inr fun hmem => hxw (by
              rw [hw2]
              exact List.mem_append_left _ hmem)

theorem collectItems_empty_eq (m m' : Matcher) (codes codes' : List Char) (rd : Bool)
    (results : List (String × CompleteResult)) :
    ∀ (names words : List String),
      collectItems m "" codes rd results names words =
        collectItems m' "" codes' rd results names words := by
  have hpi : ∀ (snip : Bool) (items : List ExtendedCompleteItem) (words : List String),
      processItems m "" codes rd snip items words =
        processItems m' "" codes' rd snip items words := by
    intro snip items
    induction items with
    | nil => intro words; rfl
    | cons it rest ih =>
      intro words
      simp only [processItems]
      rw [processItem_empty_eq m m' codes codes' rd snip words it]
      cases processItem m' "" codes' rd snip words it
      · exact ih words
      · rw [ih (words ++ [it.word])]
  intro names
  induction names with
  | nil => intro words; rfl
  | cons name rest ih =>
    intro words
    cases hlk : results.lookup name with
    | none =>
      simp only [collectItems, hlk]
      exact ih words
    | some result =>
      simp only [collectItems, hlk]
      rw [hpi, ih]

theorem mem_filterItems {m : Matcher} {input : String} {c : Complete}
    {x : ExtendedCompleteItem} (h : x ∈ Complete.filterItems m input c) :
    x ∈ collectItems m input (getCharCodes input) c.config.removeDuplicateItems
      c.results c.names [] := by
  unfold Complete.filterItems at h
  split at h
  · simp at h
  · have h1 := (limitCompleteItems_sublist _ _).subset h
    have h2 := List.take_subset _ _ h1
    exact (sortStable_perm _ _).mem_iff.mp h2

/-- C2: `setResult(name, result)` with a numeric `startcol` different from
the session's column rewrites the column and the input (to the byte slice
of the trigger line from that column to the cursor) and leaves the results
table containing exactly the one entry for `name`; with `startcol` absent
or equal, only `name`'s entry is stored or overwritten and every other
source's entry is unchanged. -/
theorem setResult_startcol_spec (c : Complete) (name : String) (r : CompleteResult) :
    (∀ sc, r.startcol = some sc → sc ≠ c.option.col →
      (c.setResult name r).results = [(name, r)] ∧
      (c.setResult name r).option.col = sc ∧
      (c.setResult name r).option.input = byteSlice c.option.line sc (c.option.colnr - 1)) ∧
    ((r.startcol = none ∨ r.startcol = some c.option.col) →
      (c.setResult name r).results = mapSet c.results name r ∧
      (c.setResult name r).option = c.option ∧
      (c.setResult name r).results.lookup name = some r ∧
      ∀ other, other ≠ name →
        (c.setResult name r).results.lookup other = c.results.lookup other) := by
  constructor
  · intro sc hsc hne
    simp [Complete.setResult, hsc, hne]
  · intro hcase
    have hres : (c.setResult name r).results = mapSet c.results name r ∧
        (c.setResult name r).option = c.option := by
      rcases hcase with hnone | hsome
      · simp [Complete.setResult, hnone]
      · simp [Complete.setResult, hsome]
    refine ⟨hres.1, hres.2, ?_, ?_⟩
    · rw [hres.1]
      exact lookup_mapSet_self _ _ _
    · intro other hother
      rw [hres.1]
      exact lookup_mapSet_ne _ _ _ _ hother

/-- Witness for C2 at a concrete session: column 2 on line "hello" with
cursor byte 5, a result declaring `startcol = 3`. -/
theorem setResult_startcol_witness :
    (c2state.setResult "c" { items := [], startcol := some 3 }).results
      = [("c", { items := [], startcol := some 3 })] ∧
    (c2state.setResult "c" { items := [], startcol := some 3 }).option.col = 3 ∧
    (c2state.setResult "c" { items := [], startcol := some 3 }).option.input
      = byteSlice c2state.option.line 3 (c2state.option.colnr - 1) :=
  (setResult_startcol_spec c2state "c" { items := [], startcol := some 3 }).1 3 rfl
    (by decide)

/-- C5: `limitCompleteItems` preserves the ranked order (its output is a
sublist of its input), treats zero caps as unlimited (both for the
whole pass and for high-priority items when only the high cap is zero),
and for a run of same-source items of priority ≥ 90 with a non-zero high
cap keeps exactly the first `cap` items in ranked order. -/
theorem limitCompleteItems_spec :
    (∀ cfg items, List.Sublist (Complete.limitCompleteItems cfg items) items) ∧
    (∀ cfg items, cfg.highPrioritySourceLimit = 0 → cfg.lowPrioritySourceLimit = 0 →
      Complete.limitCompleteItems cfg items = items) ∧
    (∀ cfg items, cfg.highPrioritySourceLimit = 0 → (∀ it ∈ items, ¬ it.priority < 90) →
      Complete.limitCompleteItems cfg items = items) ∧
    (∀ cfg items s, cfg.highPrioritySourceLimit ≠ 0 →
      (∀ it ∈ items, it.source = s ∧ ¬ it.priority < 90) →
      Complete.limitCompleteItems cfg items = items.take cfg.highPrioritySourceLimit) ∧
    (∀ cfg items s, cfg.lowPrioritySourceLimit ≠ 0 →
      (∀ it ∈ items, it.source = s ∧ it.priority < 90) →
      Complete.limitCompleteItems cfg items = items.take cfg.lowPrioritySourceLimit) := by
  refine ⟨limitCompleteItems_sublist, ?_, ?_, ?_, ?_⟩
  · intro cfg items h1 h2
    simp [Complete.limitCompleteItems, h1, h2]
  · intro cfg items h1 hall
    unfold Complete.limitCompleteItems
    split
    · rfl
    · rw [h1]
      exact limitGo_high_zero _ _ _ hall
  · intro cfg items s hcap hall
    unfold Complete.limitCompleteItems
    split
    · rename_i hcond
      exact absurd hcond.1 hcap
    · have h := limitGo_take cfg.highPrioritySourceLimit cfg.lowPrioritySourceLimit s hcap
        items [] 0 hall rfl (Nat.zero_le _)
      simpa using h
  · intro cfg items s hcap hall
    unfold Complete.limitCompleteItems
    split
    · rename_i hcond
      exact absurd hcond.2 hcap
    · have h := limitGo_take_low cfg.lowPrioritySourceLimit cfg.highPrioritySourceLimit s
        hcap items [] 0 hall rfl (Nat.zero_le _)
      simpa using h

/-- Witness for C5: with a high-priority cap of 2, of three same-source
priority-95 items only the first two in ranked order are retained. -/
theorem limitCompleteItems_witness :
    Complete.limitCompleteItems ⟨50, "length", false, 2, 0⟩ [hiItem 1, hiItem 2, hiItem 3]
      = [hiItem 1, hiItem 2] := by
  have h := limitCompleteItems_spec.2.2.2.1 ⟨50, "length", false, 2, 0⟩
    [hiItem 1, hiItem 2, hiItem 3] "s" (by decide) (by decide)
  simpa using h

/-- C6: a throwing `shouldComplete` or a rejecting `doComplete` is caught
inside `completeSource`: the call resolves (the embedding is a total
function), the error is reported, and the whole results table — in
particular every other source's entry — is left exactly as it was. -/
theorem completeSource_error_isolated (c : Complete) (name : String) (priority : Int)
    (sc : Option (JsOutcome Bool)) (dc : JsOutcome (Option RawCompleteResult))
    (cs cr : Bool) (fp si : String) (lb : String → Option Int) :
    (∀ e, sc = some (Except.error e) →
      Complete.completeSource c name priority sc dc cs cr fp si lb = (c, [e])) ∧
    (∀ e, dc = Except.error e → sc = none →
      Complete.completeSource c name priority sc dc cs cr fp si lb = (c, [e])) ∧
    (∀ e, dc = Except.error e → sc = some (Except.ok true) → cs = false →
      Complete.completeSource c name priority sc dc cs cr fp si lb = (c, [e])) := by
  refine ⟨?_, ?_, ?_⟩
  · intro e h1
    simp [Complete.completeSource, h1]
  · intro e h1 h2
    simp [Complete.completeSource, h1, h2]
  · intro e h1 h2 h3
    simp [Complete.completeSource, h1, h2, h3]

/-- Witness for C6: a rejecting `doComplete` on a session with a stored
sibling result leaves the table unchanged and reports the error. -/
theorem completeSource_error_witness :
    Complete.completeSource c2state "c" 0 none (Except.error "boom") false false "" "~"
      (fun _ => none) = (c2state, ["boom"]) :=
  (completeSource_error_isolated c2state "c" 0 none (Except.error "boom") false false ""
    "~" (fun _ => none)).2.1 "boom" rfl rfl

/-- C7: `fireRefresh` clears any outstanding refresh timer before
scheduling the new one, so from a well-formed timer state it leaves
exactly one pending refresh notification; the well-formedness is preserved
both by `fireRefresh` and by a timer firing, and it bounds the number of
pending refresh notifications by one at every point. -/
theorem fireRefresh_debounce (s : SessionTimers) (h : RefreshInv s) :
    RefreshInv (fireRefresh s) ∧
    (fireRefresh s).world.pending.length = 1 ∧
    (∀ id, RefreshInv { world := runTimerW s.world id, timer := s.timer }) ∧
    s.world.pending.length ≤ 1 := by
  obtain ⟨h1, h2, h3⟩ := h
  have hpend : (fireRefresh s).world.pending = [s.world.nextId] ∧
      (fireRefresh s).world.nextId = s.world.nextId + 1 ∧
      (fireRefresh s).timer = some s.world.nextId := by
    cases ht : s.timer with
    | none =>
      have hnil : s.world.pending = [] := by
        cases hp : s.world.pending with
        | nil => rfl
        | cons a l =>
          have := h1 a (by rw [hp]; exact List.mem_cons_self _ _)
          rw [ht] at this
          exact Option.noConfusion this
      simp [fireRefresh, ht, setTimeoutW, hnil]
    | some t =>
      have hfil : s.world.pending.filter (fun i => i != t) = [] := by
        rw [List.filter_eq_nil]
        intro a ha
        have := h1 a ha
        rw [ht] at this
        simp [Option.some.inj this]
      simp [fireRefresh, ht, clearTimeoutW, setTimeoutW, hfil]
  refine ⟨⟨?_, ?_, ?_⟩, ?_, ?_, ?_⟩
  · intro id hid
    rw [hpend.1] at hid
    rw [hpend.2.2, List.mem_singleton.mp hid]
  · intro id hid
    rw [hpend.1] at hid
    rw [hpend.2.1, List.mem_singleton.mp hid]
    omega
  · rw [hpend.1]
    exact List.nodup_singleton _
  · rw [hpend.1]
    rfl
  · intro id
    refine ⟨?_, ?_, ?_⟩
    · intro i hi
      exact h1 i (List.mem_of_mem_filter hi)
    · intro i hi
      exact h2 i (List.mem_of_mem_filter hi)
    · exact h3.sublist (List.filter_sublist _)
  · cases hp : s.world.pending with
    | nil => simp
    | cons a l =>
      cases l with
      | nil => simp
      | cons b l2 =>
        exfalso
        have ha := h1 a (by rw [hp]; exact List.mem_cons_self _ _)
        have hb := h1 b (by rw [hp]; exact List.mem_cons_of_mem _ (List.mem_cons_self _ _))
        rw [ha] at hb
        have hab : a = b := Option.some.inj hb
        have hnd := h3
        rw [hp, hab] at hnd
        exact (List.nodup_cons.mp hnd).1 (List.mem_cons_self _ _)

/-- Witness for C7 from the fresh timer state (no pending timer). -/
theorem fireRefresh_witness :
    RefreshInv (fireRefresh ⟨⟨0, []⟩, none⟩) ∧
    (fireRefresh (⟨⟨0, []⟩, none⟩ : SessionTimers)).world.pending.length = 1 ∧
    (∀ id, RefreshInv { world := runTimerW (⟨0, []⟩ : TimerWorld) id, timer := none }) ∧
    ([] : List Nat).length ≤ 1 :=
  fireRefresh_debounce ⟨⟨0, []⟩, none⟩ (by refine ⟨?_, ?_, ?_⟩ <;> simp [RefreshInv])

/-- C9: `filterItems(q)` never returns an item whose filterText is shorter
than the query, regardless of match quality: every surviving item
satisfies `q.length ≤ filterText.length`. -/
theorem filterItems_min_length (m : Matcher) (input : String) (c : Complete)
    (x : ExtendedCompleteItem) (hx : x ∈ Complete.filterItems m input c) :
    input.length ≤ x.filterText.length := by
  obtain ⟨name, r, hlk, it, hit, snip, w, hpi⟩ := mem_collectItems (mem_filterItems hx)
  have h := processItem_some hpi
  rw [h.2.2.1]
  exact h.2.2.2.2.2.2.2.2.1

/-- Witness for C9 at the concrete scenario session (empty query, a
surviving "foo" item). -/
theorem filterItems_min_length_witness :
    ("" : String).length ≤ lspFoo.filterText.length :=
  filterItems_min_length matcherNone "" c4state lspFoo (by decide)

/-- C4: in every `filterItems` output, two items sharing a word can
coexist only if one of them explicitly allows duplicates (an item whose
word already appeared from an earlier, higher-priority source is skipped
unless dup-allowed); in the concrete scenario — sources "dict" (priority
10) and "lsp" (priority 100) both yielding word "foo", duplicate removal
enabled, "dict"'s item not dup-allowed — the constructor orders the
sources ["lsp", "dict"] and only "lsp"'s "foo" survives. -/
theorem filterItems_dedup_spec :
    (∀ (m : Matcher) (input : String) (c : Complete),
      (Complete.filterItems m input c).Pairwise
        (fun a b => a.word = b.word → a.dup = some 1 ∨ b.dup = some 1)) ∧
    (∀ (m : Matcher) (codes : List Char) (snip : Bool) (words : List String)
      (it : ExtendedCompleteItem), it.dup = some 1 →
      processItem m "" codes false snip words it = some it) ∧
    c4state.names = ["lsp", "dict"] ∧
    Complete.filterItems matcherNone "" c4state = [lspFoo] := by
  refine ⟨?_, ?_, by decide, by decide⟩
  case refine_2 =>
    intro m codes snip words it hdup
    have h0 : ("" : String).length = 0 := rfl
    simp [processItem, h0, hdup]
  intro m input c
  unfold Complete.filterItems
  split
  · simp
  · have hcol := (collectItems_dedup m input (getCharCodes input)
      c.config.removeDuplicateItems c.results c.names []).1
    have h1 := (List.Perm.pairwise_iff (fun hab hw => (hab hw.symm).symm)
      (sortStable_perm (itemLe input c.config.defaultSortMethod) _)).mpr hcol
    exact (h1.sublist (List.take_sublist _ _)).sublist (limitCompleteItems_sublist _ _)

/-- Witness for C4: a dup-allowed item whose word is already in the seen
set is still kept (duplicate removal off, empty query). -/
theorem filterItems_dedup_witness :
    processItem matcherNone "" (getCharCodes "") false false ["foo"] dupFoo = some dupFoo :=
  filterItems_dedup_spec.2.1 matcherNone (getCharCodes "") false ["foo"] dupFoo rfl

/-- C10: on a non-empty query, an item with a truthy (non-empty) `kind`
whose filterText equals the query bypasses the fuzzy scorer: its raw score
is the fixed 64 with matched positions covering every character index of
its filterText, independently of the matcher, and the stored score of the
processed item is 64 multiplied by the optional per-item source weighting
factor. -/
theorem exact_match_bypass :
    (∀ (m : Matcher) (input : String) (codes : List Char) (it : ExtendedCompleteItem),
      kindTruthy it.kind = true → it.filterText = input →
      rawScorePositions m input codes it = (64, some (List.range it.filterText.length))) ∧
    (∀ (m m' : Matcher) (input : String) (codes codes' : List Char)
      (it : ExtendedCompleteItem), kindTruthy it.kind = true → it.filterText = input →
      rawScorePositions m input codes it = rawScorePositions m' input codes' it) ∧
    (∀ (m : Matcher) (input : String) (codes : List Char) (rd : Bool)
      (words : List String) (it it' : ExtendedCompleteItem), input.length ≠ 0 →
      kindTruthy it.kind = true → it.filterText = input →
      processItem m input codes rd false words it = some it' →
      it'.score = some (64 * sourceWeight it.sourceScore)) := by
  have hraw : ∀ (m : Matcher) (input : String) (codes : List Char)
      (it : ExtendedCompleteItem), kindTruthy it.kind = true → it.filterText = input →
      rawScorePositions m input codes it = (64, some (List.range it.filterText.length)) := by
    intro m input codes it hk hf
    simp [rawScorePositions, hk, hf]
  refine ⟨hraw, ?_, ?_⟩
  · intro m m' input codes codes' it hk hf
    rw [hraw m input codes it hk hf, hraw m' input codes' it hk hf]
  · intro m input codes rd words it it' hlen hk hf h
    simp only [processItem] at h
    split_ifs at h with h1 h2 h3 h4 h5 h6
    all_goals try exact Option.noConfusion h
    all_goals try exact absurd hlen h4
    all_goals try exact h5.1.elim
    all_goals try exact h6.1.elim
    injection h with hinj
    subst hinj
    simp [hraw m input codes it hk hf]

/-- Witness for C10 at the concrete exact-match fixture. -/
theorem exact_match_bypass_witness :
    rawScorePositions matcherNone "ab" (getCharCodes "ab") kindItem
      = (64, some (List.range kindItem.filterText.length)) :=
  exact_match_bypass.1 matcherNone "ab" (getCharCodes "ab") kindItem (by decide) rfl

theorem cmpScores_self_none (o : Option Rat) : cmpScores o o = none := by
  cases o <;> simp [cmpScores]

theorem cmpBonus_self_none (o : Option Int) : cmpBonus o o = none := by
  cases o <;> simp [cmpBonus]

theorem cmpSortText_self_none (o : Option String) : cmpSortText o o = none := by
  cases o <;> simp [cmpSortText]

theorem lexLtChars_irrefl (l : List Char) : lexLtChars l l = false := by
  induction l with
  | nil => rfl
  | cons c cs ih => simp [lexLtChars, ih]

theorem collectItems_nil_results (m : Matcher) (input : String) (codes : List Char)
    (rd : Bool) : ∀ (names words : List String),
    collectItems m input codes rd [] names words = [] := by
  intro names
  induction names with
  | nil => intro words; rfl
  | cons name rest ih =>
    intro words
    simp only [collectItems, List.lookup]
    exact ih words

theorem filterItems_eq (m : Matcher) (input : String) (c : Complete) :
    Complete.filterItems m input c = Complete.limitCompleteItems c.config
      ((sortStable (itemLe input c.config.defaultSortMethod)
        (collectItems m input (getCharCodes input) c.config.removeDuplicateItems
          c.results c.names [])).take c.config.maxItemCount) := by
  unfold Complete.filterItems
  split
  · rename_i hemp
    have hres : c.results = [] := by
      cases hr : c.results with
      | nil => rfl
      | cons p l => rw [hr] at hemp; simp at hemp
    rw [hres, collectItems_nil_results]
    simp [sortStable, Complete.limitCompleteItems, limitGo]
  · rfl

theorem itemLe_priority_cases (input method : String) (a b : ExtendedCompleteItem)
    (ha : a.score = none) (hb : b.score = none) :
    (itemLe input method a b = true → b.priority ≤ a.priority) ∧
    (itemLe input method a b = false → a.priority ≤ b.priority) := by
  have hsc : cmpScores a.score b.score = none := by rw [ha, hb]; rfl
  by_cases hpr : a.priority = b.priority
  · constructor <;> intro _ <;> omega
  · have hcmp : compareItems input method a b = ((b.priority - a.priority : Int) : Rat) := by
      simp only [compareItems, hsc]
      rw [if_pos hpr]
    constructor
    · intro hle
      simp only [itemLe, hcmp, decide_eq_true_eq] at hle
      have h2 : (b.priority - a.priority : Int) ≤ 0 := by exact_mod_cast hle
      omega
    · intro hle
      simp only [itemLe, hcmp, decide_eq_false_iff_not] at hle
      have h2 : ¬ (b.priority - a.priority : Int) ≤ 0 := fun hc => hle (by exact_mod_cast hc)
      omega

theorem itemLe_scored_cases (input method : String) (a b : ExtendedCompleteItem)
    (ha : a.score.isSome = true) (hb : b.score.isSome = true) :
    (itemLe input method a b = true → (b.score.getD 0 < a.score.getD 0 ∨
      (b.score.getD 0 = a.score.getD 0 ∧ b.priority ≤ a.priority))) ∧
    (itemLe input method a b = false → (a.score.getD 0 < b.score.getD 0 ∨
      (a.score.getD 0 = b.score.getD 0 ∧ a.priority ≤ b.priority))) := by
  obtain ⟨x, hx⟩ := Option.isSome_iff_exists.mp ha
  obtain ⟨y, hy⟩ := Option.isSome_iff_exists.mp hb
  have hgx : a.score.getD 0 = x := by rw [hx]; rfl
  have hgy : b.score.getD 0 = y := by rw [hy]; rfl
  rw [hgx, hgy]
  by_cases hxy : x = y
  · have hsc : cmpScores a.score b.score = none := by simp [cmpScores, hx, hy, hxy]
    by_cases hpr : a.priority = b.priority
    · constructor <;> intro _
      · exact Or.inr ⟨hxy.symm, le_of_eq hpr.symm⟩
      · exact Or.inr ⟨hxy, le_of_eq hpr⟩
    · have hcmp : compareItems input method a b = ((b.priority - a.priority : Int) : Rat) := by
        simp only [compareItems, hsc]
        rw [if_pos hpr]
      constructor
      · intro hle
        simp only [itemLe, hcmp, decide_eq_true_eq] at hle
        have h2 : (b.priority - a.priority : Int) ≤ 0 := by exact_mod_cast hle
        exact Or.inr ⟨hxy.symm, by omega⟩
      · intro hle
        simp only [itemLe, hcmp, decide_eq_false_iff_not] at hle
        have h2 : ¬ (b.priority - a.priority : Int) ≤ 0 := fun hc => hle (by exact_mod_cast hc)
        exact Or.inr ⟨hxy, by omega⟩
  · have hsc : cmpScores a.score b.score = some (y - x) := by simp [cmpScores, hx, hy, hxy]
    have hcmp : compareItems input method a b = y - x := by simp only [compareItems, hsc]
    constructor
    · intro hle
      simp only [itemLe, hcmp, decide_eq_true_eq] at hle
      have h2 : y ≤ x := sub_nonpos.mp hle
      exact Or.inl (lt_of_le_of_ne h2 fun he => hxy he.symm)
    · intro hle
      simp only [itemLe, hcmp, decide_eq_false_iff_not] at hle
      have h2 : 0 < y - x := lt_of_not_le hle
      exact Or.inl (sub_pos.mp h2)

/-- C1 supplement: with a nonempty query every surviving item carries a
computed score, and the ranked output is ordered by descending score with
descending priority inside each score tie — in particular an item of
higher priority precedes one of lower priority whenever the two scores
tie. -/
theorem filterItems_rank_order (m : Matcher) (input : String) (c : Complete)
    (hlen : input.length ≠ 0) :
    (∀ x ∈ Complete.filterItems m input c, x.score.isSome = true) ∧
    (Complete.filterItems m input c).Pairwise (fun a b =>
      b.score.getD 0 < a.score.getD 0 ∨
      (b.score.getD 0 = a.score.getD 0 ∧ b.priority ≤ a.priority)) := by
  have hsome : ∀ x ∈ collectItems m input (getCharCodes input)
      c.config.removeDuplicateItems c.results c.names [], x.score.isSome = true := by
    intro x hx
    obtain ⟨name, r, hlk, it, hit, snip, w, hpi⟩ := mem_collectItems hx
    exact processItem_score_isSome hlen hpi
  constructor
  · intro x hx
    exact hsome x (mem_filterItems hx)
  · rw [filterItems_eq]
    have hp : (sortStable (itemLe input c.config.defaultSortMethod)
        (collectItems m input (getCharCodes input) c.config.removeDuplicateItems
          c.results c.names [])).Pairwise (fun a b =>
        b.score.getD 0 < a.score.getD 0 ∨
        (b.score.getD 0 = a.score.getD 0 ∧ b.priority ≤ a.priority)) := by
      refine pairwise_sortStable ?_ _ _ ?_
      · intro a b d h1 h2
        rcases h1 with h1 | ⟨h1e, h1p⟩ <;> rcases h2 with h2 | ⟨h2e, h2p⟩
        · exact Or.inl (lt_trans h2 h1)
        · exact Or.inl (lt_of_le_of_lt (le_of_eq h2e) h1)
        · exact Or.inl (lt_of_lt_of_le h2 (le_of_eq h1e))
        · exact Or.inr ⟨h2e.trans h1e, le_trans h2p h1p⟩
      · intro a ha b hb
        exact itemLe_scored_cases input c.config.defaultSortMethod a b
          (hsome a ha) (hsome b hb)
    exact (hp.sublist (List.take_sublist _ _)).sublist (limitCompleteItems_sublist _ _)

/-- C1 (amended): the `filterItems` comparator orders by descending score,
then descending priority, then descending localBonus, then ascending
sortText for items of one source; after those keys the order is stable
(comparator 0) for an EMPTY query, while for a NONEMPTY query the
configured tiebreak applies: "none" = stable, "alphabetical" =
lexicographic on filterText, any other method — including the default
"length" — ascending filterText length.  In particular, two items tied on
score and localBonus whose priorities satisfy p1 > p2 compare with the p1
item strictly first. -/
theorem compareItems_spec :
    (∀ (input method : String) (a b : ExtendedCompleteItem) (x y : Rat),
      a.score = some x → b.score = some y → y < x →
      compareItems input method a b < 0) ∧
    (∀ (input method : String) (a b : ExtendedCompleteItem),
      a.score = b.score → a.localBonus = b.localBonus → b.priority < a.priority →
      compareItems input method a b < 0) ∧
    (∀ (input method : String) (a b : ExtendedCompleteItem) (x y : Int),
      a.score = b.score → a.priority = b.priority → a.localBonus = some x →
      b.localBonus = some y → y < x → compareItems input method a b < 0) ∧
    (∀ (input method : String) (a b : ExtendedCompleteItem) (sa sb : String),
      a.score = b.score → a.priority = b.priority → a.localBonus = b.localBonus →
      a.source = b.source → a.sortText = some sa → b.sortText = some sb →
      strLt sa sb = true → compareItems input method a b < 0) ∧
    (∀ (method : String) (a b : ExtendedCompleteItem),
      a.score = b.score → a.priority = b.priority → a.localBonus = b.localBonus →
      (a.source = b.source → a.sortText = b.sortText) →
      compareItems "" method a b = 0) ∧
    (∀ (input : String) (a b : ExtendedCompleteItem), input.length ≠ 0 →
      a.score = b.score → a.priority = b.priority → a.localBonus = b.localBonus →
      (a.source = b.source → a.sortText = b.sortText) →
      compareItems input "none" a b = 0) ∧
    (∀ (input : String) (a b : ExtendedCompleteItem), input.length ≠ 0 →
      a.score = b.score → a.priority = b.priority → a.localBonus = b.localBonus →
      (a.source = b.source → a.sortText = b.sortText) →
      compareItems input "alphabetical" a b = localeCompare a.filterText b.filterText) ∧
    (∀ (input method : String) (a b : ExtendedCompleteItem), input.length ≠ 0 →
      method ≠ "none" → method ≠ "alphabetical" →
      a.score = b.score → a.priority = b.priority → a.localBonus = b.localBonus →
      (a.source = b.source → a.sortText = b.sortText) →
      compareItems input method a b
        = ((a.filterText.length - b.filterText.length : Int) : Rat)) ∧
    (∀ (m : Matcher) (input : String) (c : Complete), input.length ≠ 0 →
      (Complete.filterItems m input c).Pairwise (fun a b =>
        b.score.getD 0 < a.score.getD 0 ∨
        (b.score.getD 0 = a.score.getD 0 ∧ b.priority ≤ a.priority))) := by
  have hstep : ∀ (input method : String) (a b : ExtendedCompleteItem),
      a.score = b.score → a.priority = b.priority → a.localBonus = b.localBonus →
      (a.source = b.source → a.sortText = b.sortText) →
      compareItems input method a b =
        (if input.length = 0 then 0
         else if method = "none" then 0
         else if method = "alphabetical" then localeCompare a.filterText b.filterText
         else ((a.filterText.length - b.filterText.length : Int) : Rat)) := by
    intro input method a b hs hpr hlb hst
    have hsc : cmpScores a.score b.score = none := by rw [hs]; exact cmpScores_self_none _
    have hlbn : cmpBonus a.localBonus b.localBonus = none := by
      rw [hlb]; exact cmpBonus_self_none _
    have hpe : ¬ a.priority ≠ b.priority := by simp [hpr]
    have hsort : (if a.source = b.source then cmpSortText a.sortText b.sortText else none)
        = none := by
      by_cases hsrc : a.source = b.source
      · rw [if_pos hsrc, hst hsrc]
        exact cmpSortText_self_none _
      · rw [if_neg hsrc]
    simp only [compareItems, hsc]
    rw [if_neg hpe]
    simp only [hlbn, hsort]
  refine ⟨?_, ?_, ?_, ?_, ?_, ?_, ?_, ?_, ?_⟩
  · intro input method a b x y ha hb hxy
    have hne : ¬ x = y := fun he => absurd hxy (by rw [he]; exact lt_irrefl _)
    have hsc : cmpScores a.score b.score = some (y - x) := by
      simp [cmpScores, ha, hb, hne]
    simp only [compareItems, hsc]
    exact sub_neg.mpr hxy
  · intro input method a b hs hlb hpr
    have hsc : cmpScores a.score b.score = none := by rw [hs]; exact cmpScores_self_none _
    have hne : a.priority ≠ b.priority := by omega
    have hcmp : compareItems input method a b = ((b.priority - a.priority : Int) : Rat) := by
      simp only [compareItems, hsc]
      rw [if_pos hne]
    rw [hcmp]
    have h2 : (b.priority - a.priority : Int) < 0 := by omega
    exact_mod_cast h2
  · intro input method a b x y hs hpr hax hbx hxy
    have hsc : cmpScores a.score b.score = none := by rw [hs]; exact cmpScores_self_none _
    have hpe : ¬ a.priority ≠ b.priority := by simp [hpr]
    have hne : ¬ x = y := fun he => absurd hxy (by rw [he]; exact lt_irrefl _)
    have hlbn : cmpBonus a.localBonus b.localBonus = some ((y - x : Int) : Rat) := by
      simp [cmpBonus, hax, hbx, hne]
    simp only [compareItems, hsc]
    rw [if_neg hpe]
    simp only [hlbn]
    have h2 : (y - x : Int) < 0 := by omega
    exact_mod_cast h2
  · intro input method a b sa sb hs hpr hlb hsrc hta htb hlt
    have hsc : cmpScores a.score b.score = none := by rw [hs]; exact cmpScores_self_none _
    have hpe : ¬ a.priority ≠ b.priority := by simp [hpr]
    have hlbn : cmpBonus a.localBonus b.localBonus = none := by
      rw [hlb]; exact cmpBonus_self_none _
    have hne : ¬ sa = sb := by
      intro he
      rw [he, strLt, lexLtChars_irrefl] at hlt
      exact Bool.false_ne_true hlt
    have hsort : (if a.source = b.source then cmpSortText a.sortText b.sortText else none)
        = some (-1) := by
      rw [if_pos hsrc, hta, htb]
      simp [cmpSortText, hne, hlt]
    simp only [compareItems, hsc]
    rw [if_neg hpe]
    simp only [hlbn, hsort]
    norm_num
  · intro method a b hs hpr hlb hst
    rw [hstep "" method a b hs hpr hlb hst]
    rfl
  · intro input a b hlen hs hpr hlb hst
    rw [hstep input "none" a b hs hpr hlb hst, if_neg hlen, if_pos rfl]
  · intro input a b hlen hs hpr hlb hst
    rw [hstep input "alphabetical" a b hs hpr hlb hst, if_neg hlen,
      if_neg (by decide : ¬ ("alphabetical" : String) = "none"), if_pos rfl]
  · intro input method a b hlen hm1 hm2 hs hpr hlb hst
    rw [hstep input method a b hs hpr hlb hst, if_neg hlen, if_neg hm1, if_neg hm2]
  · intro m input c hlen
    exact (filterItems_rank_order m input c hlen).2

/-- Witness for C1: two concrete items tied on (unset) score and
localBonus with priorities 100 > 10 compare with the priority-100 item
first. -/
theorem compareItems_spec_witness :
    compareItems "" "length" lspFoo dictFoo < 0 ∧
    (Complete.filterItems matcherConst "x" c1state).Pairwise (fun a b =>
      b.score.getD 0 < a.score.getD 0 ∨
      (b.score.getD 0 = a.score.getD 0 ∧ b.priority ≤ a.priority)) :=
  ⟨compareItems_spec.2.1 "" "length" lspFoo dictFoo rfl rfl (by decide),
    compareItems_spec.2.2.2.2.2.2.2.2 matcherConst "x" c1state (by decide)⟩

/-- Counterexample to C1 as stated: the claim swaps the role of
empty/nonempty queries.  With the default "length" tiebreak configured, an
EMPTY query keeps two otherwise fully tied items in insertion order
("bb" before "a"), not in ascending filterText length; and a NONEMPTY
query applies the length tiebreak instead of keeping the order stable,
reordering the same insertion order to ["a", "bb"]. -/
theorem compareItems_tiebreak_cex :
    c1state.config.defaultSortMethod = "length" ∧
    Complete.filterItems matcherNone "" c1state = [itemBB, itemA] ∧
    ¬ (Complete.filterItems matcherNone "" c1state).Pairwise
      (fun x y => x.filterText.length ≤ y.filterText.length) ∧
    (Complete.filterItems matcherConst "x" c1state).map ExtendedCompleteItem.filterText
      = ["a", "bb"] := by
  refine ⟨rfl, by decide, by decide, by with_unfolding_all decide⟩

/-- C3 (amended): with the per-source caps unlimited and the surviving
item count within `maxItemCount`, `filterItems("")` on items with unset
scores returns exactly the non-dedup-skipped items (a permutation of the
collection pass) in descending-priority order; every returned item is a
stored item returned unchanged — its score still unset — and the fuzzy
matcher is never consulted (any two matchers give the same output). -/
theorem filterItems_empty_input_spec (m m' : Matcher) (c : Complete)
    (hhigh : c.config.highPrioritySourceLimit = 0)
    (hlow : c.config.lowPrioritySourceLimit = 0)
    (hmax : (collectItems m "" (getCharCodes "") c.config.removeDuplicateItems
      c.results c.names []).length ≤ c.config.maxItemCount)
    (hscore : ∀ p ∈ c.results, ∀ it ∈ p.2.items, it.score = none) :
    List.Perm (Complete.filterItems m "" c)
      (collectItems m "" (getCharCodes "") c.config.removeDuplicateItems c.results
        c.names []) ∧
    (Complete.filterItems m "" c).Pairwise (fun a b => b.priority ≤ a.priority) ∧
    (∀ x ∈ Complete.filterItems m "" c, x.score = none ∧
      ∃ p ∈ c.results, x ∈ p.2.items) ∧
    Complete.filterItems m "" c = Complete.filterItems m' "" c := by
  have hmemL : ∀ x ∈ collectItems m "" (getCharCodes "") c.config.removeDuplicateItems
      c.results c.names [], x.score = none ∧ ∃ p ∈ c.results, x ∈ p.2.items := by
    intro x hx
    obtain ⟨name, r, hlk, it, hit, snip, w, hpi⟩ := mem_collectItems hx
    have hxit : x = it := processItem_empty_some hpi
    subst hxit
    exact ⟨hscore (name, r) (mem_of_lookup_eq_some hlk) x hit,
      (name, r), mem_of_lookup_eq_some hlk, hit⟩
  have heq : Complete.filterItems m "" c = sortStable
      (itemLe "" c.config.defaultSortMethod)
      (collectItems m "" (getCharCodes "") c.config.removeDuplicateItems c.results
        c.names []) := by
    rw [filterItems_eq]
    rw [List.take_of_length_le (by
      rw [(sortStable_perm _ _).length_eq]
      exact hmax)]
    simp [Complete.limitCompleteItems, hhigh, hlow]
  refine ⟨?_, ?_, ?_, ?_⟩
  · rw [heq]
    exact sortStable_perm _ _
  · rw [heq]
    refine pairwise_sortStable ?_ _ _ ?_
    · intro a b d h1 h2
      exact le_trans h2 h1
    · intro a ha b hb
      exact itemLe_priority_cases "" c.config.defaultSortMethod a b
        (hmemL a ha).1 (hmemL b hb).1
  · intro x hx
    refine hmemL x ?_
    rw [heq] at hx
    exact (sortStable_perm _ _).mem_iff.mp hx
  · rw [filterItems_eq, filterItems_eq,
      collectItems_empty_eq m m' (getCharCodes "") (getCharCodes "")]

/-- Witness for C3 at the concrete two-source scenario session (unlimited
caps, two stored unscored items). -/
theorem filterItems_empty_input_witness :
    List.Perm (Complete.filterItems matcherNone "" c4state)
      (collectItems matcherNone "" (getCharCodes "") c4state.config.removeDuplicateItems
        c4state.results c4state.names []) ∧
    (Complete.filterItems matcherNone "" c4state).Pairwise
      (fun a b => b.priority ≤ a.priority) ∧
    (∀ x ∈ Complete.filterItems matcherNone "" c4state, x.score = none ∧
      ∃ p ∈ c4state.results, x ∈ p.2.items) ∧
    Complete.filterItems matcherNone "" c4state
      = Complete.filterItems matcherConst "" c4state :=
  filterItems_empty_input_spec matcherNone matcherConst c4state rfl rfl
    (by decide) (by decide)

/-- Counterexample to C3 as stated: `filterItems("")` does not return ALL
non-dedup-skipped items — the `maxItemCount` truncation still applies.
With `maxItemCount = 1`, the stored item "a" (distinct word, no dedup
skip) is missing from the output. -/
theorem filterItems_empty_truncation_cex :
    c3state.results = [("s", { items := [itemBB, itemA] })] ∧
    itemA.word ≠ itemBB.word ∧
    Complete.filterItems matcherNone "" c3state = [itemBB] ∧
    itemA ∉ Complete.filterItems matcherNone "" c3state := by
  refine ⟨rfl, by decide, by decide, by decide⟩

theorem extendRun_length (e : Nat) (l : List Nat) : (extendRun e l).2.length ≤ l.length := by
  induction l generalizing e with
  | nil => simp [extendRun]
  | cons n rest ih =>
    simp only [extendRun]
    split
    · exact Nat.le_trans (ih n) (Nat.le_succ _)
    · simp

theorem specRunsAux_eq (s : Nat) : ∀ (rest : List Nat) (e : Nat),
    specRunsAux s e rest = (s, (extendRun e rest).1) :: specRuns (extendRun e rest).2 := by
  intro rest
  induction rest with
  | nil => intro e; simp [specRunsAux, extendRun, specRuns]
  | cons n rest2 ih =>
    intro e
    simp only [specRunsAux, extendRun]
    split
    · exact ih n
    · simp [specRuns]

theorem specRunsAux_flatten : ∀ (rest : List Nat) (s e : Nat), s ≤ e →
    (specRunsAux s e rest).flatMap (fun r => List.range' r.1 (r.2 + 1 - r.1)) =
      List.range' s (e + 1 - s) ++ rest := by
  intro rest
  induction rest with
  | nil => intro s e hse; simp [specRunsAux]
  | cons n rest2 ih =>
    intro s e hse
    simp only [specRunsAux]
    split
    · rename_i hn
      rw [ih s n (by omega)]
      subst hn
      rw [show (e + 1 + 1 - s) = (e + 1 - s) + 1 by omega, List.range'_concat,
        show s + 1 * (e + 1 - s) = e + 1 by omega]
      simp
    · rename_i hn
      simp only [List.flatMap_cons]
      rw [ih n n (le_refl n)]
      simp

theorem specRuns_flatten (ps : List Nat) :
    (specRuns ps).flatMap (fun r => List.range' r.1 (r.2 + 1 - r.1)) = ps := by
  cases ps with
  | nil => rfl
  | cons n rest =>
    rw [specRuns, specRunsAux_flatten rest n n (le_refl n)]
    simp [List.range'_concat]

theorem specRunsAux_chain : ∀ (rest : List Nat) (s e : Nat),
    List.Chain' (· < ·) (e :: rest) →
    (specRunsAux s e rest).Chain' (fun r1 r2 => r1.2 + 1 < r2.1) ∧
    (∃ e2 tl, specRunsAux s e rest = (s, e2) :: tl ∧ e ≤ e2) := by
  intro rest
  induction rest with
  | nil =>
    intro s e _
    exact ⟨List.chain'_singleton _, e, [], rfl, le_refl e⟩
  | cons n rest2 ih =>
    intro s e hch
    have hch2 : List.Chain' (· < ·) (n :: rest2) := (List.chain'_cons.mp hch).2
    have hlt : e < n := (List.chain'_cons.mp hch).1
    simp only [specRunsAux]
    split
    · rename_i hn
      obtain ⟨hc, e2, tl, heq, hle⟩ := ih s n hch2
      exact ⟨hc, e2, tl, heq, by omega⟩
    · rename_i hn
      obtain ⟨hc, e2, tl, heq, hle⟩ := ih n n hch2
      refine ⟨?_, e, specRunsAux n n rest2, rfl, le_refl e⟩
      rw [heq]
      rw [heq] at hc
      exact List.chain'_cons.mpr ⟨by omega, hc⟩

theorem positionHighlights_runs (label : String) (pre row : Nat) :
    ∀ ps : List Nat, positionHighlights label ps pre row =
      (specRuns ps).map (mkRunSpan label pre row) := by
  have key : ∀ (n : Nat) (ps : List Nat), ps.length ≤ n →
      positionHighlights label ps pre row =
        (specRuns ps).map (mkRunSpan label pre row) := by
    intro n
    induction n with
    | zero =>
      intro ps hps
      have hnil : ps = [] := List.length_eq_zero.mp (Nat.le_zero.mp hps)
      subst hnil
      simp [positionHighlights, specRuns]
    | succ n ih =>
      intro ps hps
      cases ps with
      | nil => simp [positionHighlights, specRuns]
      | cons start rest =>
        rcases hER : extendRun start rest with ⟨e, rest2⟩
        have hlen : rest2.length ≤ n := by
          have h1 := extendRun_length start rest
          rw [hER] at h1
          simp only [List.length_cons] at hps
          simp only at h1
          omega
        rw [positionHighlights, hER]
        rw [specRuns, specRunsAux_eq start rest start, hER]
        simp only [List.map_cons]
        rw [ih rest2 hlen]
        rfl
  exact fun ps => key ps.length ps (le_refl _)

/-- C8: `positionHighlights` collapses its position list into maximal
contiguous runs and emits exactly one `CocPumSearch` span per run, each
covering the byte range of its run within the label shifted by the byte
offset: it equals the map of the span constructor over the runs
decomposition; the runs flatten back to exactly the given positions, and
for a strictly increasing position list consecutive runs are separated by
a gap (each run is maximal); over [0, 1, 2, 5] exactly two spans result,
one covering character indices 0–2 (bytes 0..3) and one covering index 5
(bytes 5..6). -/
theorem positionHighlights_spec :
    (∀ (label : String) (ps : List Nat) (pre row : Nat),
      positionHighlights label ps pre row =
        (specRuns ps).map (mkRunSpan label pre row)) ∧
    (∀ ps : List Nat,
      (specRuns ps).flatMap (fun r => List.range' r.1 (r.2 + 1 - r.1)) = ps) ∧
    (∀ ps : List Nat, ps.Chain' (· < ·) →
      (specRuns ps).Chain' (fun r1 r2 => r1.2 + 1 < r2.1)) ∧
    positionHighlights "abcdef" [0, 1, 2, 5] 0 0 =
      [⟨"CocPumSearch", 0, 0, 3⟩, ⟨"CocPumSearch", 0, 5, 6⟩] := by
  refine ⟨fun label ps pre row => positionHighlights_runs label pre row ps,
    specRuns_flatten, ?_, ?_⟩
  · intro ps hch
    cases ps with
    | nil => exact List.chain'_nil
    | cons n rest =>
      rw [specRuns]
      exact (specRunsAux_chain rest n n hch).1
  · rw [positionHighlights_runs]
    decide

/-- Witness for C8: the strictly increasing list [0, 1, 2, 5] yields runs
separated by a gap. -/
theorem positionHighlights_spec_witness :
    List.Chain' (· < ·) [0, 1, 2, 5] ∧
    (specRuns [0, 1, 2, 5]).Chain' (fun r1 r2 => r1.2 + 1 < r2.1) :=
  ⟨by simp [List.chain'_cons], positionHighlights_spec.2.2.1 [0, 1, 2, 5]
    (by simp [List.chain'_cons])⟩

